import Mathlib

/-!
Verification of the resource/collection abstraction of the asynclxd client
library.  Python code from `asynclxd/api/resource.py`, `asynclxd/api/http.py`
and `asynclxd/api/websocket.py` is shallowly embedded: JSON payloads become
the inductive `JVal`, fallible Python code returns `Except PyErr`, the remote
endpoint is an oracle queue of responses that also records the requests
issued, and `copy.deepcopy` is studied separately with an explicit heap model.
-/

namespace Asynclxd

/-- A Python/JSON value as it appears in request and response payloads.
`res kind arg` stands for a typed resource handle constructed by a
related-resource factory such as `Container(remote, arg)`. -/
inductive JVal where
  | null
  | bool (b : Bool)
  | num (n : Int)
  | str (s : String)
  | list (xs : List JVal)
  | obj (fields : List (String × JVal))
  | res (kind : String) (arg : JVal)
deriving Repr

/-- Python errors that the embedded code can raise. -/
inductive PyErr where
  | attrError
  | keyError
  | typeError
  | nameError
  | indexError
deriving Repr, DecidableEq

/-- Result of fallible Python code. -/
abbrev PyRes (α : Type) := Except PyErr α

/-- Python truthiness (`bool(x)`) of a `JVal`.  Resource instances define no
`__bool__`/`__len__`, hence are always truthy. -/
def jtruthy : JVal → Bool
  | .null => false
  | .bool b => b
  | .num n => n != 0
  | .str s => s != ""
  | .list xs => !xs.isEmpty
  | .obj fs => !fs.isEmpty
  | .res _ _ => true

/-- Association-list lookup for the fields of a JSON object. -/
def lookupStr : List (String × JVal) → String → Option JVal
  | [], _ => none
  | (k, v) :: rest, key => if k = key then some v else lookupStr rest key

/-- Python `d.get(key)`: `None` for an absent key, `AttributeError` when the
receiver is not a dict. -/
def dictGet : JVal → String → PyRes JVal
  | .obj fs, k => .ok ((lookupStr fs k).getD .null)
  | _, _ => .error .attrError

/-- Python `d[key]`: `KeyError` for an absent key, `TypeError` when the
receiver is not a dict. -/
def dictItem : JVal → String → PyRes JVal
  | .obj fs, k => match lookupStr fs k with
    | some v => .ok v
    | none => .error .keyError
  | _, _ => .error .typeError

/-- Python `d[key] = v` on a dict: replaces the value in place, keeping the
insertion order of an existing key. -/
def setKey : List (String × JVal) → String → JVal → List (String × JVal)
  | [], k, v => [(k, v)]
  | (k', v') :: rest, k, v =>
    if k' = k then (k, v) :: rest else (k', v') :: setKey rest k v

/-- A Python value used where a `str` is required (`str.startswith` etc.);
non-strings raise `AttributeError`. -/
def asStr : JVal → PyRes String
  | .str s => .ok s
  | _ => .error .attrError

/-! ## `urllib.parse.quote` and `ResourceCollection._resource_uri` -/

/-- Characters `urllib.parse.quote` leaves unescaped with the default
`safe='/'`: ASCII alphanumerics, `_ . - ~` and `/`. -/
def pctAllowed (c : Char) : Bool :=
  c.isAlpha || c.isDigit || c = '_' || c = '.' || c = '-' || c = '~' || c = '/'

/-- Upper-case hexadecimal digit for `n < 16`. -/
def hexDig (n : Nat) : Char :=
  if n < 10 then Char.ofNat (48 + n) else Char.ofNat (55 + n)

/-- Percent-encoding of one byte, `%XX` with upper-case hex digits. -/
def pctEnc (b : Nat) : List Char :=
  ['%', hexDig (b / 16), hexDig (b % 16)]

/-- UTF-8 encoding of a character, as byte values. -/
def utf8Bytes (c : Char) : List Nat :=
  let n := c.toNat
  if n < 0x80 then [n]
  else if n < 0x800 then [0xC0 + n / 64, 0x80 + n % 64]
  else if n < 0x10000 then [0xE0 + n / 4096, 0x80 + (n / 64) % 64, 0x80 + n % 64]
  else [0xF0 + n / 262144, 0x80 + (n / 4096) % 64, 0x80 + (n / 64) % 64, 0x80 + n % 64]

/-- `urllib.parse.quote` on a single character. -/
def quoteChar (c : Char) : List Char :=
  if pctAllowed c then [c] else (utf8Bytes c).flatMap pctEnc

/-- `urllib.parse.quote` on a character sequence. -/
def quoteL (s : List Char) : List Char :=
  s.flatMap quoteChar

/-- `urllib.parse.quote(s)` with the default `safe='/'`. -/
def quote (s : String) : String :=
  ⟨quoteL s.data⟩

/-- The prefix-stripping step of `ResourceCollection._resource_uri`:
`resource_id[len(self.uri) + 1:]` when `resource_id.startswith(self.uri)`. -/
def stripPrefL (base s : List Char) : List Char :=
  if base.isPrefixOf s then s.drop (base.length + 1) else s

/-- `ResourceCollection._resource_uri(resource_id)`:
strip the collection base if present, then `f"{self.uri}/{quote(resource_id)}"`. -/
def resourceUri (base rid : String) : String :=
  ⟨base.data ++ '/' :: quoteL (stripPrefL base.data rid.data)⟩

theorem isPrefixOf_append_self (base t : List Char) :
    base.isPrefixOf (base ++ t) = true := by
  induction base with
  | nil => simp [List.isPrefixOf]
  | cons a as ih => simp [List.isPrefixOf, ih]

theorem drop_append_len_succ (base t : List Char) :
    (base ++ '/' :: t).drop (base.length + 1) = t := by
  induction base with
  | nil => rfl
  | cons a as ih => simp [ih]

theorem stripPrefL_append (base t : List Char) :
    stripPrefL base (base ++ '/' :: t) = t := by
  unfold stripPrefL
  rw [isPrefixOf_append_self]
  simp [drop_append_len_succ]

/-- C6: for every collection base `B` and identifier, the constructed handle
URI is `B ++ "/" ++ quote(id)` after stripping an already-qualified prefix;
re-feeding a resource's own URI re-quotes the quoted segment, so the
round-trip is idempotent exactly when quoting leaves the stripped identifier
unchanged (identifiers with characters needing percent-encoding are
double-encoded instead). -/
theorem c6_resource_uri_normalization (base id : String) :
    resourceUri base id = ⟨base.data ++ '/' :: quoteL (stripPrefL base.data id.data)⟩
    ∧ resourceUri base (resourceUri base id)
        = ⟨base.data ++ '/' :: quoteL (quoteL (stripPrefL base.data id.data))⟩
    ∧ (quoteL (stripPrefL base.data id.data) = stripPrefL base.data id.data →
        resourceUri base (resourceUri base id) = resourceUri base id) := by
  refine ⟨rfl, ?_, ?_⟩
  · show (⟨base.data ++ '/' ::
        quoteL (stripPrefL base.data (base.data ++ '/' ::
          quoteL (stripPrefL base.data id.data)))⟩ : String) = _
    rw [stripPrefL_append]
  · intro h
    show (⟨base.data ++ '/' ::
        quoteL (stripPrefL base.data (base.data ++ '/' ::
          quoteL (stripPrefL base.data id.data)))⟩ : String) = _
    rw [stripPrefL_append, h]
    rfl

/-- C6 witness: for an identifier that percent-encoding leaves unchanged,
feeding the resulting URI back into the collection yields the same URI. -/
theorem c6_resource_uri_normalization_witness :
    quoteL (stripPrefL "/c".data "ab".data) = stripPrefL "/c".data "ab".data
    ∧ resourceUri "/c" (resourceUri "/c" "ab") = resourceUri "/c" "ab" :=
  ⟨by decide, (c6_resource_uri_normalization "/c" "ab").2.2 (by decide)⟩

/-- C6 counterexample: an identifier containing a space is percent-encoded to
`a%20b`, and feeding the resulting URI back double-encodes it to `a%2520b`,
so the normalization is not idempotent as the claim states. -/
theorem c6_requote_not_idempotent :
    resourceUri "/c" "a b" = "/c/a%20b"
    ∧ resourceUri "/c" (resourceUri "/c" "a b") = "/c/a%2520b"
    ∧ resourceUri "/c" (resourceUri "/c" "a b") ≠ resourceUri "/c" "a b" := by
  refine ⟨by decide, by decide, by decide⟩

/-! ## Related-resource expansion (`Resource._set_related_resources`)

The Python loop walks `keys` with `entry = entry.get(key)`, breaking as soon
as a value is falsy; a completed walk rewrites either every list element or
the parent dict's entry for the final key, in place.  On tree-shaped payloads
(as produced by JSON decoding) the in-place rewrite is the functional update
at the rule's key path. -/

/-- One rule of `related_resources`: a nested key path and a factory.  The
factory stands for `resource_factory(self._remote, value)` with the remote
fixed. -/
abbrev Rule := List String × (JVal → JVal)

/-- The traversal `for key in keys: entry = entry.get(key); if not entry:
break` — `ok none` when some step hit an absent key or a falsy value (the
rule is then skipped), `ok (some v)` when the walk completed with the truthy
value `v`, an error when `.get` was called on a non-dict. -/
def resolvePath (m : JVal) : List String → PyRes (Option JVal)
  | [] => .error .nameError
  | [k] => match dictGet m k with
    | .error e => .error e
    | .ok v => .ok (if jtruthy v then some v else none)
  | k :: k₂ :: rest => match dictGet m k with
    | .error e => .error e
    | .ok v => if jtruthy v then resolvePath v (k₂ :: rest) else .ok none

/-- Functional update at a key path: the pure description of the in-place
assignment performed at the end of a completed walk. -/
def setAtPath (m : JVal) : List String → JVal → JVal
  | [], _ => m
  | [k], w => match m with
    | .obj fs => .obj (setKey fs k w)
    | _ => m
  | k :: k₂ :: rest, w => match m with
    | .obj fs => match lookupStr fs k with
      | some v => .obj (setKey fs k (setAtPath v (k₂ :: rest) w))
      | none => m
    | _ => m

/-- Plain lookup along a key path, used to state what expansion left at (or
off) the rewritten path. -/
def getAtPath (m : JVal) : List String → Option JVal
  | [] => some m
  | k :: rest => match m with
    | .obj fs => match lookupStr fs k with
      | some v => getAtPath v rest
      | none => none
    | _ => none

/-- Evaluation of one related-resource rule against a payload: skip silently
when the walk broke on an absent/falsy value, rewrite each list element via
the factory when the resolved value is a list, otherwise replace the parent
entry for the final key with the factory's result. -/
def applyRule (f : JVal → JVal) (keys : List String) (m : JVal) : PyRes JVal :=
  match resolvePath m keys with
  | .error e => .error e
  | .ok none => .ok m
  | .ok (some (.list xs)) => .ok (setAtPath m keys (.list (xs.map f)))
  | .ok (some v) => .ok (setAtPath m keys (f v))

/-- Error-propagating fold of `applyRule` over the declared rules. -/
def setRelatedGo : List Rule → JVal → PyRes JVal
  | [], m => .ok m
  | (keys, f) :: rest, m => match applyRule f keys m with
    | .error e => .error e
    | .ok m' => setRelatedGo rest m'

/-- `Resource._set_related_resources`: a no-op when the resource declares no
rules or the payload is falsy. -/
def setRelated (rules : List Rule) (m : JVal) : PyRes JVal :=
  if rules.isEmpty || !jtruthy m then .ok m else setRelatedGo rules m

theorem lookupStr_setKey_self (fs : List (String × JVal)) (k : String) (w : JVal) :
    lookupStr (setKey fs k w) k = some w := by
  induction fs with
  | nil => simp [setKey, lookupStr]
  | cons p rest ih =>
    by_cases h : p.1 = k
    · simp [setKey, h, lookupStr]
    · simp [setKey, h, lookupStr, ih]

theorem lookupStr_setKey_other (fs : List (String × JVal)) (k k' : String)
    (w : JVal) (hne : k' ≠ k) :
    lookupStr (setKey fs k w) k' = lookupStr fs k' := by
  have hkk : ¬ k = k' := fun h => hne h.symm
  induction fs with
  | nil => simp [setKey, lookupStr, hkk]
  | cons p rest ih =>
    obtain ⟨pk, pv⟩ := p
    by_cases h : pk = k
    · subst h
      simp [setKey, lookupStr, hkk]
    · simp only [setKey, if_neg h, lookupStr]
      by_cases h2 : pk = k'
      · simp [h2]
      · simp [h2, ih]

theorem getAtPath_obj_cons (fs : List (String × JVal)) (k : String)
    (rest : List String) :
    getAtPath (.obj fs) (k :: rest)
      = (match lookupStr fs k with
        | some v => getAtPath v rest
        | none => none) := rfl

theorem setAtPath_obj_one (fs : List (String × JVal)) (k : String) (w : JVal) :
    setAtPath (.obj fs) [k] w = .obj (setKey fs k w) := rfl

theorem setAtPath_obj_cons (fs : List (String × JVal)) (k k₂ : String)
    (rest : List String) (w : JVal) :
    setAtPath (.obj fs) (k :: k₂ :: rest) w
      = (match lookupStr fs k with
        | some v => JVal.obj (setKey fs k (setAtPath v (k₂ :: rest) w))
        | none => JVal.obj fs) := rfl

/-- A completed walk means: the payload is a dict at every step, each key is
present, and the value found is truthy; hence the plain lookup agrees. -/
theorem getAtPath_of_resolve (keys : List String) :
    ∀ m v, resolvePath m keys = .ok (some v) → getAtPath m keys = some v := by
  induction keys with
  | nil => intro m v h; simp [resolvePath] at h
  | cons k rest ih =>
    intro m v h
    match rest with
    | [] =>
      cases m with
      | obj fs =>
        simp only [resolvePath, dictGet] at h
        cases hl : lookupStr fs k with
        | none => simp [hl, jtruthy] at h
        | some w =>
          simp only [hl, Option.getD] at h
          by_cases ht : jtruthy w
          · simp [ht] at h
            simp [getAtPath, hl, h]
          · simp [ht] at h
      | null => simp [resolvePath, dictGet] at h
      | bool b => simp [resolvePath, dictGet] at h
      | num n => simp [resolvePath, dictGet] at h
      | str s => simp [resolvePath, dictGet] at h
      | list xs => simp [resolvePath, dictGet] at h
      | res kd a => simp [resolvePath, dictGet] at h
    | k₂ :: rest' =>
      cases m with
      | obj fs =>
        simp only [resolvePath, dictGet] at h
        cases hl : lookupStr fs k with
        | none => simp [hl, jtruthy] at h
        | some w =>
          simp only [hl, Option.getD] at h
          by_cases ht : jtruthy w
          · simp only [ht, if_pos] at h
            rw [getAtPath_obj_cons, hl]
            exact ih w v h
          · simp [ht] at h
      | null => simp [resolvePath, dictGet] at h
      | bool b => simp [resolvePath, dictGet] at h
      | num n => simp [resolvePath, dictGet] at h
      | str s => simp [resolvePath, dictGet] at h
      | list xs => simp [resolvePath, dictGet] at h
      | res kd a => simp [resolvePath, dictGet] at h

/-- After a completed walk, the functional rewrite stores the new value at
the rule's path. -/
theorem getAtPath_setAtPath (keys : List String) :
    ∀ m v w, resolvePath m keys = .ok (some v) →
      getAtPath (setAtPath m keys w) keys = some w := by
  induction keys with
  | nil => intro m v w h; simp [resolvePath] at h
  | cons k rest ih =>
    intro m v w h
    match rest with
    | [] =>
      cases m with
      | obj fs =>
        simp [setAtPath, getAtPath, lookupStr_setKey_self]
      | null => simp [resolvePath, dictGet] at h
      | bool b => simp [resolvePath, dictGet] at h
      | num n => simp [resolvePath, dictGet] at h
      | str s => simp [resolvePath, dictGet] at h
      | list xs => simp [resolvePath, dictGet] at h
      | res kd a => simp [resolvePath, dictGet] at h
    | k₂ :: rest' =>
      cases m with
      | obj fs =>
        simp only [resolvePath, dictGet] at h
        cases hl : lookupStr fs k with
        | none => simp [hl, jtruthy] at h
        | some u =>
          simp only [hl, Option.getD] at h
          by_cases ht : jtruthy u
          · simp only [ht, if_pos] at h
            rw [setAtPath_obj_cons, hl, getAtPath_obj_cons, lookupStr_setKey_self]
            exact ih u v w h
          · simp [ht] at h
      | null => simp [resolvePath, dictGet] at h
      | bool b => simp [resolvePath, dictGet] at h
      | num n => simp [resolvePath, dictGet] at h
      | str s => simp [resolvePath, dictGet] at h
      | list xs => simp [resolvePath, dictGet] at h
      | res kd a => simp [resolvePath, dictGet] at h

/-- The rewrite touches only its own path: lookups along any path that
diverges from the rule's path are unchanged. -/
theorem getAtPath_setAtPath_frame (keys : List String) :
    ∀ m w p, ¬ keys <+: p → ¬ p <+: keys →
      getAtPath (setAtPath m keys w) p = getAtPath m p := by
  induction keys with
  | nil => intro m w p hk _; exact absurd (List.nil_prefix) hk
  | cons k rest ih =>
    intro m w p hk hp
    match p with
    | [] => exact absurd (List.nil_prefix) hp
    | q :: qs =>
      cases m with
      | obj fs =>
        match rest with
        | [] =>
          by_cases hq : q = k
          · subst hq
            exact absurd (List.cons_prefix_cons.mpr ⟨rfl, List.nil_prefix⟩) hk
          · rw [setAtPath_obj_one, getAtPath_obj_cons, getAtPath_obj_cons,
              lookupStr_setKey_other fs k q w hq]
        | k₂ :: rest' =>
          by_cases hq : q = k
          · subst hq
            have hk' : ¬ (k₂ :: rest') <+: qs :=
              fun h => hk (List.cons_prefix_cons.mpr ⟨rfl, h⟩)
            have hp' : ¬ qs <+: (k₂ :: rest') :=
              fun h => hp (List.cons_prefix_cons.mpr ⟨rfl, h⟩)
            cases hl : lookupStr fs q with
            | none => rw [setAtPath_obj_cons, hl]
            | some v =>
              rw [setAtPath_obj_cons, hl, getAtPath_obj_cons, getAtPath_obj_cons,
                lookupStr_setKey_self, hl]
              exact ih v w qs hk' hp'
          · cases hl : lookupStr fs k with
            | none => rw [setAtPath_obj_cons, hl]
            | some v =>
              rw [setAtPath_obj_cons, hl, getAtPath_obj_cons, getAtPath_obj_cons,
                lookupStr_setKey_other _ k q _ hq]
      | null => cases rest with | nil => rfl | cons a b => rfl
      | bool b => cases rest with | nil => rfl | cons a b => rfl
      | num n => cases rest with | nil => rfl | cons a b => rfl
      | str s => cases rest with | nil => rfl | cons a b => rfl
      | list xs => cases rest with | nil => rfl | cons a b => rfl
      | res kd a => cases rest with | nil => rfl | cons a b => rfl

/-- C4 (amended): evaluating a related-resource rule skips silently whenever
the walk hits an absent key or a falsy value — including at the final key —
and otherwise rewrites the resolved list elementwise (resp. the parent entry
for the final key) via the factory, leaving every diverging path untouched. -/
theorem c4_related_rule_eval (f : JVal → JVal) (keys : List String) (m : JVal) :
    (resolvePath m keys = .ok none → applyRule f keys m = .ok m)
    ∧ (∀ xs, resolvePath m keys = .ok (some (.list xs)) →
        applyRule f keys m = .ok (setAtPath m keys (.list (xs.map f)))
        ∧ getAtPath (setAtPath m keys (.list (xs.map f))) keys
            = some (.list (xs.map f)))
    ∧ (∀ v, resolvePath m keys = .ok (some v) → (∀ xs, v ≠ .list xs) →
        applyRule f keys m = .ok (setAtPath m keys (f v))
        ∧ getAtPath m keys = some v
        ∧ getAtPath (setAtPath m keys (f v)) keys = some (f v))
    ∧ (∀ w p, ¬ keys <+: p → ¬ p <+: keys →
        getAtPath (setAtPath m keys w) p = getAtPath m p) := by
  refine ⟨?_, ?_, ?_, ?_⟩
  · intro h; simp [applyRule, h]
  · intro xs h
    exact ⟨by simp [applyRule, h], getAtPath_setAtPath keys m _ _ h⟩
  · intro v h hv
    refine ⟨?_, getAtPath_of_resolve keys m v h, getAtPath_setAtPath keys m v _ h⟩
    cases v with
    | list xs => exact absurd rfl (hv xs)
    | null => simp [applyRule, h]
    | bool b => simp [applyRule, h]
    | num n => simp [applyRule, h]
    | str s => simp [applyRule, h]
    | obj fs => simp [applyRule, h]
    | res kd a => simp [applyRule, h]
  · exact fun w p hk hp => getAtPath_setAtPath_frame keys m w p hk hp

/-- C4 witness: the rule `(("foo", "sample"), factory)` applied to
`{"foo": {"sample": ["u1", "u2"]}}` rewrites both list elements via the
factory, in place. -/
theorem c4_related_rule_eval_witness :
    applyRule (fun v => JVal.res "sample" v) ["foo", "sample"]
        (JVal.obj [("foo", JVal.obj [("sample",
          JVal.list [JVal.str "u1", JVal.str "u2"])])])
      = .ok (JVal.obj [("foo", JVal.obj [("sample",
          JVal.list [JVal.res "sample" (JVal.str "u1"),
            JVal.res "sample" (JVal.str "u2")])])]) := by
  have h := (c4_related_rule_eval (fun v => JVal.res "sample" v)
      ["foo", "sample"]
      (JVal.obj [("foo", JVal.obj [("sample",
        JVal.list [JVal.str "u1", JVal.str "u2"])])])).2.1
      [JVal.str "u1", JVal.str "u2"] rfl
  exact h.1

/-- C4 counterexample: for payload `{"a": 0}` and path `("a",)` the value
resolved at the end of the path is the scalar `0`, yet the code leaves the
payload unchanged (the skip-on-falsy check also applies to the final key),
while the claim demands the entry be replaced by the factory's result. -/
theorem c4_falsy_scalar_skipped :
    dictGet (JVal.obj [("a", JVal.num 0)]) "a" = .ok (JVal.num 0)
    ∧ applyRule (fun _ => JVal.str "R") ["a"] (JVal.obj [("a", JVal.num 0)])
        = .ok (JVal.obj [("a", JVal.num 0)])
    ∧ JVal.obj [("a", JVal.num 0)] ≠ JVal.obj [("a", JVal.str "R")] := by
  refine ⟨rfl, rfl, ?_⟩
  intro h
  simp at h

/-! ## Responses, the remote oracle, and `Resource` state

`http.Response` keeps the `ETag` and `Location` headers, the envelope `type`
and its `metadata` (defaulting to `{}`).  The remote is modelled as an oracle
queue of such responses; issuing a request consumes the head of the queue and
records the call, so request counts and request contents are observable. -/

/-- An `http.Response` built from a JSON body: `etag`/`location` from the
headers, `rtype = content.get("type")`, `metadata = content.get("metadata",
{})`. -/
structure Response where
  etag : Option String
  location : Option String
  rtype : Option String
  metadata : JVal
deriving Repr

/-- One request issued through `Remote.request`, as the remote records it. -/
structure Call where
  method : String
  path : Option String
  params : Option (List (String × Nat))
  headers : Option (List (String × String))
  content : Option JVal
deriving Repr

/-- The remote endpoint: an oracle queue of pending responses plus the log of
requests issued so far. -/
structure Remote where
  queue : List Response
  calls : List Call
deriving Repr

/-- `Remote.request`: consume the next queued response and record the call. -/
def Remote.request (m : Remote) (c : Call) : PyRes (Response × Remote) :=
  match m.queue with
  | [] => .error .indexError
  | r :: rest => .ok (r, ⟨rest, m.calls ++ [c]⟩)

/-- The mutable state of a `Resource`: its URI (`response.location` may be
absent, hence optional), `_last_etag` and `_details`. -/
structure ResourceState where
  uri : Option String
  lastEtag : Option String
  details : Option JVal
deriving Repr

/-- `Resource.__init__`: a resource freshly constructed from a URI. -/
def mkResource (u : Option String) : ResourceState :=
  ⟨u, none, none⟩

/-- Python truthiness of the stored `_last_etag` (`None` and `""` are falsy). -/
def etagTruthy : Option String → Bool
  | none => false
  | some s => s != ""

/-- `Resource._get_headers`: an `If-Match` header carrying `_last_etag` when
the flag is set and a truthy token is cached, otherwise `None`. -/
def getHeaders (st : ResourceState) (flag : Bool) : Option (List (String × String)) :=
  if flag && etagTruthy st.lastEtag
  then some [("If-Match", st.lastEtag.getD "")] else none

/-- `Resource.update_details`: reset the token, store a copy of the payload
and run related-resource expansion over it. -/
def updateDetails (rules : List Rule) (st : ResourceState) (d : JVal) :
    PyRes ResourceState :=
  match setRelated rules d with
  | .error e => .error e
  | .ok d' => .ok { st with lastEtag := none, details := some d' }

/-- `Resource._process_response`: adopt the response's token, expand and
store its metadata. -/
def processResponse (rules : List Rule) (st : ResourceState) (resp : Response) :
    PyRes ResourceState :=
  match setRelated rules resp.metadata with
  | .error e => .error e
  | .ok d' => .ok { st with lastEtag := resp.etag, details := some d' }

/-- `Resource.details()`: `None` until a truthy snapshot is cached, else a
deep copy of the snapshot (value-identical in this pure model). -/
def detailsAccessor (st : ResourceState) : Option JVal :=
  match st.details with
  | none => none
  | some d => if jtruthy d then some d else none

/-- `Resource.__getitem__`: `KeyError` while no truthy snapshot is cached,
else a deep copy of the snapshot's entry. -/
def getItem (st : ResourceState) (item : String) : PyRes JVal :=
  match st.details with
  | some d => if jtruthy d then dictItem d item else .error .keyError
  | none => .error .keyError

/-- `Resource._read`: GET the resource URI and process the response. -/
def resourceRead (rules : List Rule) (st : ResourceState) (m : Remote)
    (params : Option (List (String × Nat))) :
    PyRes (Response × ResourceState × Remote) :=
  match m.request ⟨"GET", st.uri, params, none, none⟩ with
  | .error e => .error e
  | .ok (resp, m') => match processResponse rules st resp with
    | .error e => .error e
    | .ok st' => .ok (resp, st', m')

/-- `Resource.update`: PATCH with the conditional header; the local state is
not touched. -/
def resourceUpdate (st : ResourceState) (flag : Bool) (d : JVal) (m : Remote) :
    PyRes (Response × ResourceState × Remote) :=
  match m.request ⟨"PATCH", st.uri, none, getHeaders st flag, some d⟩ with
  | .error e => .error e
  | .ok (resp, m') => .ok (resp, st, m')

/-- `Resource.replace`: PUT with the conditional header; the local state is
not touched. -/
def resourceReplace (st : ResourceState) (flag : Bool) (d : JVal) (m : Remote) :
    PyRes (Response × ResourceState × Remote) :=
  match m.request ⟨"PUT", st.uri, none, getHeaders st flag, some d⟩ with
  | .error e => .error e
  | .ok (resp, m') => .ok (resp, st, m')

/-- `NamedResource.rename`: POST the new name, process the response, then
adopt the `Location` header as the new URI. -/
def resourceRename (rules : List Rule) (st : ResourceState) (name : String)
    (m : Remote) : PyRes (Response × ResourceState × Remote) :=
  match m.request ⟨"POST", st.uri, none, none,
      some (.obj [("name", .str name)])⟩ with
  | .error e => .error e
  | .ok (resp, m') => match processResponse rules st resp with
    | .error e => .error e
    | .ok st' => .ok (resp, { st' with uri := resp.location }, m')

/-! ## C1: which responses feed the `If-Match` token -/

/-- The operations a caller can perform on one resource, for tracing the
evolution of the cached concurrency token. -/
inductive ROp where
  | readOp
  | updateOp (flag : Bool) (d : JVal)
  | replaceOp (flag : Bool) (d : JVal)
  | renameOp (name : String)
  | injectOp (d : JVal)
deriving Repr

/-- One traced operation against the resource and the shared remote. -/
def stepR (rules : List Rule) (st : ResourceState) (m : Remote) :
    ROp → PyRes (ResourceState × Remote)
  | .readOp => match resourceRead rules st m none with
    | .error e => .error e
    | .ok (_, st', m') => .ok (st', m')
  | .updateOp flag d => match resourceUpdate st flag d m with
    | .error e => .error e
    | .ok (_, st', m') => .ok (st', m')
  | .replaceOp flag d => match resourceReplace st flag d m with
    | .error e => .error e
    | .ok (_, st', m') => .ok (st', m')
  | .renameOp name => match resourceRename rules st name m with
    | .error e => .error e
    | .ok (_, st', m') => .ok (st', m')
  | .injectOp d => match updateDetails rules st d with
    | .error e => .error e
    | .ok st' => .ok (st', m)

/-- Run a sequence of traced operations. -/
def runTrace (rules : List Rule) :
    ResourceState → Remote → List ROp → PyRes (ResourceState × Remote)
  | st, m, [] => .ok (st, m)
  | st, m, op :: ops => match stepR rules st m op with
    | .error e => .error e
    | .ok (st', m') => runTrace rules st' m' ops

/-- Modelled from the claim (as amended): the token after a trace is the
`ETag` of the most recent response observed by a read or rename — update and
replace consume a response without observing its token — and an explicit
detail injection clears it. -/
def specToken (tok : Option String) : List ROp → List Response → Option String
  | [], _ => tok
  | .readOp :: ops, r :: q => specToken r.etag ops q
  | .readOp :: _, [] => tok
  | .updateOp _ _ :: ops, _ :: q => specToken tok ops q
  | .updateOp _ _ :: _, [] => tok
  | .replaceOp _ _ :: ops, _ :: q => specToken tok ops q
  | .replaceOp _ _ :: _, [] => tok
  | .renameOp _ :: ops, r :: q => specToken r.etag ops q
  | .renameOp _ :: _, [] => tok
  | .injectOp _ :: ops, q => specToken none ops q

theorem runTrace_lastEtag (rules : List Rule) :
    ∀ ops st m st' m', runTrace rules st m ops = .ok (st', m') →
      st'.lastEtag = specToken st.lastEtag ops m.queue := by
  intro ops
  induction ops with
  | nil =>
    intro st m st' m' h
    simp [runTrace] at h
    simp [h.1.symm, specToken]
  | cons op ops ih =>
    intro st m st' m' h
    simp only [runTrace] at h
    cases op with
    | readOp =>
      cases hq : m.queue with
      | nil =>
        simp [stepR, resourceRead, Remote.request, hq] at h
      | cons r q =>
        simp only [stepR, resourceRead, Remote.request, hq] at h
        cases hp : processResponse rules st r with
        | error e => simp [hp] at h
        | ok st₁ =>
          simp only [hp] at h
          have hetag : st₁.lastEtag = r.etag := by
            simp only [processResponse] at hp
            cases hsr : setRelated rules r.metadata with
            | error e => rw [hsr] at hp; exact absurd hp (by simp)
            | ok d' => rw [hsr] at hp; cases hp; rfl
          have heq := ih st₁
              ⟨q, m.calls ++ [⟨"GET", st.uri, none, none, none⟩]⟩ st' m' h
          simp only [specToken]
          rw [heq]
          simp [hetag]
    | updateOp flag d =>
      cases hq : m.queue with
      | nil => simp [stepR, resourceUpdate, Remote.request, hq] at h
      | cons r q =>
        simp only [stepR, resourceUpdate, Remote.request, hq] at h
        have heq := ih st
            ⟨q, m.calls ++ [⟨"PATCH", st.uri, none, getHeaders st flag,
              some d⟩]⟩ st' m' h
        simp only [specToken]
        rw [heq]
    | replaceOp flag d =>
      cases hq : m.queue with
      | nil => simp [stepR, resourceReplace, Remote.request, hq] at h
      | cons r q =>
        simp only [stepR, resourceReplace, Remote.request, hq] at h
        have heq := ih st
            ⟨q, m.calls ++ [⟨"PUT", st.uri, none, getHeaders st flag,
              some d⟩]⟩ st' m' h
        simp only [specToken]
        rw [heq]
    | renameOp name =>
      cases hq : m.queue with
      | nil => simp [stepR, resourceRename, Remote.request, hq] at h
      | cons r q =>
        simp only [stepR, resourceRename, Remote.request, hq] at h
        cases hp : processResponse rules st r with
        | error e => simp [hp] at h
        | ok st₁ =>
          simp only [hp] at h
          have hetag : st₁.lastEtag = r.etag := by
            simp only [processResponse] at hp
            cases hsr : setRelated rules r.metadata with
            | error e => rw [hsr] at hp; exact absurd hp (by simp)
            | ok d' => rw [hsr] at hp; cases hp; rfl
          have heq := ih { st₁ with uri := r.location }
              ⟨q, m.calls ++ [⟨"POST", st.uri, none, none,
                some (.obj [("name", .str name)])⟩]⟩ st' m' h
          simp only [specToken]
          rw [heq]
          simp [hetag]
    | injectOp d =>
      cases hu : updateDetails rules st d with
      | error e => simp [stepR, hu] at h
      | ok st₁ =>
        simp only [stepR, hu] at h
        have hetag : st₁.lastEtag = none := by
          simp only [updateDetails] at hu
          cases hsr : setRelated rules d with
          | error e => rw [hsr] at hu; exact absurd hu (by simp)
          | ok d' => rw [hsr] at hu; cases hu; rfl
        have heq := ih st₁ m st' m' h
        simp only [specToken]
        rw [heq]
        simp [hetag]

/-- C1 (amended): after any successful trace starting from a fresh resource,
the cached token equals the `ETag` of the most recently observed read or
rename response (update/replace responses do not update it, and a detail
injection clears it); a following `update()`/`replace()` sends exactly that
token as `If-Match` when the flag is left set and a truthy token exists, and
no conditional header otherwise. -/
theorem c1_ifmatch_from_last_read_or_rename (rules : List Rule)
    (u : Option String) (queue : List Response) (ops : List ROp)
    (st : ResourceState) (m' : Remote)
    (h : runTrace rules (mkResource u) ⟨queue, []⟩ ops = .ok (st, m')) :
    st.lastEtag = specToken none ops queue
    ∧ (∀ flag, getHeaders st flag
        = if flag && etagTruthy (specToken none ops queue)
          then some [("If-Match", (specToken none ops queue).getD "")]
          else none)
    ∧ (∀ flag d resp rest, m'.queue = resp :: rest →
        stepR rules st m' (.updateOp flag d)
          = .ok (st, ⟨rest, m'.calls ++
              [⟨"PATCH", st.uri, none, getHeaders st flag, some d⟩]⟩)
        ∧ stepR rules st m' (.replaceOp flag d)
          = .ok (st, ⟨rest, m'.calls ++
              [⟨"PUT", st.uri, none, getHeaders st flag, some d⟩]⟩)) := by
  have h1 := runTrace_lastEtag rules ops (mkResource u) ⟨queue, []⟩ st m' h
  refine ⟨h1, ?_, ?_⟩
  · intro flag
    rw [getHeaders, h1]
    rfl
  · intro flag d resp rest hq
    constructor
    · simp [stepR, resourceUpdate, Remote.request, hq]
    · simp [stepR, resourceReplace, Remote.request, hq]

/-- C1 witness: after one successful read returning `ETag: a`, the stored
token is the spec-side most-recent token and the next update carries
`If-Match: a`. -/
theorem c1_ifmatch_witness :
    (ResourceState.mk (some "/res") (some "a") (some (JVal.obj []))).lastEtag
      = specToken none [ROp.readOp]
          [Response.mk (some "a") none none (JVal.obj [])]
    ∧ getHeaders
        (ResourceState.mk (some "/res") (some "a") (some (JVal.obj []))) true
      = some [("If-Match", "a")] := by
  have h := c1_ifmatch_from_last_read_or_rename []
      (some "/res") [Response.mk (some "a") none none (JVal.obj [])]
      [ROp.readOp]
      (ResourceState.mk (some "/res") (some "a") (some (JVal.obj [])))
      ⟨[], [Call.mk "GET" (some "/res") none none none]⟩ rfl
  refine ⟨h.1, ?_⟩
  rw [h.2.1 true]
  rfl

/-- C1 counterexample: read observes `ETag: a`; a first update's response
carries `ETag: b`, yet the second update still sends `If-Match: a` — the
update response was never recorded as a token observation, contradicting the
claim that update/replace responses count. -/
theorem c1_update_response_not_observed :
    runTrace [] (mkResource (some "/res"))
        ⟨[Response.mk (some "a") none none (JVal.obj []),
          Response.mk (some "b") none none (JVal.obj []),
          Response.mk (some "c") none none (JVal.obj [])], []⟩
        [ROp.readOp, ROp.updateOp true (JVal.obj []),
          ROp.updateOp true (JVal.obj [])]
      = .ok (ResourceState.mk (some "/res") (some "a") (some (JVal.obj [])),
          ⟨[],
            [Call.mk "GET" (some "/res") none none none,
              Call.mk "PATCH" (some "/res") none
                (some [("If-Match", "a")]) (some (JVal.obj [])),
              Call.mk "PATCH" (some "/res") none
                (some [("If-Match", "a")]) (some (JVal.obj []))]⟩)
    ∧ (Response.mk (some "b") none none (JVal.obj [])).etag = some "b"
    ∧ some "a" ≠ (some "b" : Option String) := by
  refine ⟨rfl, rfl, by decide⟩

/-! ## C3: rename adopts the reported location and drops the old snapshot -/

/-- C3: a successful rename issues one POST with the new name, and the
resulting state is determined by the rename response alone — URI from the
`Location` header, token and snapshot from the response's payload — so the
previously cached snapshot is discarded; an empty rename payload leaves the
public accessor reporting no details. -/
theorem c3_rename_adopts_location (rules : List Rule) (st : ResourceState)
    (name : String) (resp : Response) (rest : List Response)
    (calls : List Call) (seeded : JVal)
    (h : setRelated rules resp.metadata = .ok seeded) :
    resourceRename rules st name ⟨resp :: rest, calls⟩
      = .ok (resp, ⟨resp.location, resp.etag, some seeded⟩,
          ⟨rest, calls ++ [⟨"POST", st.uri, none, none,
            some (.obj [("name", .str name)])⟩]⟩)
    ∧ (resp.metadata = .obj [] →
        detailsAccessor ⟨resp.location, resp.etag, some seeded⟩ = none) := by
  constructor
  · simp [resourceRename, Remote.request, processResponse, h]
  · intro hm
    rw [hm] at h
    have hs : seeded = .obj [] := by
      simp [setRelated, jtruthy] at h
      exact h.symm
    simp [detailsAccessor, hs, jtruthy]

/-- C3 witness: renaming `/x/old` to `new` with a `Location: /x/new`
response and an empty payload moves the URI and clears the snapshot. -/
theorem c3_rename_witness :
    resourceRename [] (ResourceState.mk (some "/x/old") (some "z")
        (some (JVal.obj [("name", JVal.str "old")]))) "new"
        ⟨[Response.mk none (some "/x/new") none (JVal.obj [])], []⟩
      = .ok (Response.mk none (some "/x/new") none (JVal.obj []),
          ResourceState.mk (some "/x/new") none (some (JVal.obj [])),
          ⟨[], [Call.mk "POST" (some "/x/old") none none
            (some (JVal.obj [("name", JVal.str "new")]))]⟩)
    ∧ detailsAccessor
        (ResourceState.mk (some "/x/new") none (some (JVal.obj []))) = none := by
  have h := c3_rename_adopts_location [] (ResourceState.mk (some "/x/old")
      (some "z") (some (JVal.obj [("name", JVal.str "old")]))) "new"
      (Response.mk none (some "/x/new") none (JVal.obj [])) [] []
      (JVal.obj []) rfl
  exact ⟨h.1, h.2 rfl⟩

/-! ## C10: an empty snapshot is publicly indistinguishable from none -/

/-- C10: whenever the cached snapshot is falsy (in particular the empty
mapping left by processing a response with no metadata, or injected
explicitly), `details()` returns `None` and every field access raises
`KeyError`, exactly as on a never-fetched resource. -/
theorem c10_empty_snapshot_like_none (st : ResourceState) (m : JVal)
    (hd : st.details = some m) (hm : jtruthy m = false) :
    detailsAccessor st = none
    ∧ detailsAccessor st = detailsAccessor (mkResource st.uri)
    ∧ (∀ item, getItem st item = .error .keyError
        ∧ getItem st item = getItem (mkResource st.uri) item)
    ∧ (∀ rules st₀, updateDetails rules st₀ (.obj [])
        = .ok { st₀ with lastEtag := none, details := some (.obj []) })
    ∧ (∀ rules st₀ resp, resp.metadata = .obj [] →
        processResponse rules st₀ resp
          = .ok { st₀ with lastEtag := resp.etag, details := some (.obj []) }) := by
  refine ⟨?_, ?_, ?_, ?_, ?_⟩
  · simp [detailsAccessor, hd, hm]
  · simp [detailsAccessor, hd, hm, mkResource]
  · intro item
    constructor
    · simp [getItem, hd, hm]
    · simp [getItem, hd, hm, mkResource]
  · intro rules st₀
    simp [updateDetails, setRelated, jtruthy]
  · intro rules st₀ resp hr
    simp [processResponse, hr, setRelated, jtruthy]

/-- C10 witness: a resource holding the empty snapshot `{}` reports no
details and raises `KeyError` on field access. -/
theorem c10_empty_snapshot_witness :
    detailsAccessor (ResourceState.mk (some "/r") (some "e")
        (some (JVal.obj []))) = none
    ∧ getItem (ResourceState.mk (some "/r") (some "e")
        (some (JVal.obj []))) "name" = .error .keyError := by
  have h := c10_empty_snapshot_like_none
      (ResourceState.mk (some "/r") (some "e") (some (JVal.obj [])))
      (JVal.obj []) rfl rfl
  exact ⟨h.1, (h.2.2.1 "name").1⟩

/-! ## Collections: `create` dispatch (C2) and `read` (C5) -/

/-- The per-kind data of a `ResourceCollection`: base URI, raw-passthrough
flag, and the resource class's `id_attribute`, `related_resources` and the
collection's `_process_content` hook (identity in the base class). -/
structure CollState where
  uri : String
  raw : Bool
  idAttribute : String
  rules : List Rule
  hook : JVal → JVal

/-- `Operation.related_resources`: rules rewriting
`resources.containers` / `resources.images` entries into typed handles. -/
def operationRules : List Rule :=
  [(["resources", "containers"], fun v => .res "container" v),
   (["resources", "images"], fun v => .res "image" v)]

/-- `Response.operation`: `None` unless the envelope type is `"async"`,
otherwise an `Operation` at the `Location` header, pre-seeded via
`update_details` with the response metadata. -/
def responseOperation (resp : Response) : PyRes (Option ResourceState) :=
  if resp.rtype = some "async" then
    match updateDetails operationRules (mkResource resp.location) resp.metadata with
    | .error e => .error e
    | .ok op => .ok (some op)
  else .ok none

/-- The three possible results of `ResourceCollection.create`. -/
inductive CreateResult where
  | rawBody (m : JVal)
  | operation (op : ResourceState)
  | resource (r : ResourceState)
deriving Repr

/-- `ResourceCollection.create`: POST the payload, then return the raw
metadata (raw mode), the background operation (async envelope), or a plain
resource at the reported location. -/
def collectionCreate (col : CollState) (m : Remote) (d : JVal) :
    PyRes (CreateResult × Remote) :=
  match m.request ⟨"POST", some col.uri, none, none, some d⟩ with
  | .error e => .error e
  | .ok (resp, m') =>
    if col.raw then .ok (.rawBody resp.metadata, m')
    else match responseOperation resp with
      | .error e => .error e
      | .ok (some op) => .ok (.operation op, m')
      | .ok none => .ok (.resource (mkResource resp.location), m')

/-- `ResourceCollection.resource_from_details`: extract the identifier from
the payload, address the resource under the collection base, and seed it with
the payload via `update_details`. -/
def resourceFromDetails (col : CollState) (d : JVal) : PyRes ResourceState :=
  match dictItem d col.idAttribute with
  | .error e => .error e
  | .ok v => match asStr v with
    | .error e => .error e
    | .ok rid =>
      updateDetails col.rules (mkResource (some (resourceUri col.uri rid))) d

/-- The two possible results of `ResourceCollection.read`. -/
inductive ReadResult where
  | rawBody (m : JVal)
  | resources (rs : List ResourceState)
deriving Repr

/-- Error-propagating map, as a Python list comprehension evaluates. -/
def listMapPy {α β : Type} (f : α → PyRes β) : List α → PyRes (List β)
  | [] => .ok []
  | x :: xs => match f x with
    | .error e => .error e
    | .ok y => match listMapPy f xs with
      | .error e => .error e
      | .ok ys => .ok (y :: ys)

/-- `ResourceCollection.read`: one GET (with `recursion=1` in recursive
mode); raw mode returns the metadata, recursive mode builds detail-seeded
resources, non-recursive mode builds bare resources from the listed URIs.
Iteration over a non-list payload is not modelled. -/
def collectionRead (col : CollState) (m : Remote) (recursion : Bool) :
    PyRes (ReadResult × Remote) :=
  match m.request ⟨"GET", some col.uri,
      (if recursion then some [("recursion", 1)] else none), none, none⟩ with
  | .error e => .error e
  | .ok (resp, m') =>
    if col.raw then .ok (.rawBody resp.metadata, m')
    else match col.hook resp.metadata with
      | .list xs =>
        if recursion then
          match listMapPy (resourceFromDetails col) xs with
          | .error e => .error e
          | .ok rs => .ok (.resources rs, m')
        else
          match listMapPy (fun x => match asStr x with
            | .error e => (.error e : PyRes ResourceState)
            | .ok u => .ok (mkResource (some u))) xs with
          | .error e => .error e
          | .ok rs => .ok (.resources rs, m')
      | _ => .error .typeError

theorem listMapPy_ok {α β : Type} (f : α → PyRes β) (g : α → β) :
    ∀ xs : List α, (∀ x ∈ xs, f x = .ok (g x)) →
      listMapPy f xs = .ok (xs.map g) := by
  intro xs
  induction xs with
  | nil => intro _; rfl
  | cons x rest ih =>
    intro hall
    have hx := hall x (by simp)
    have hrest := ih fun y hy => hall y (by simp [hy])
    simp [listMapPy, hx, hrest]

/-- C2: `create` issues exactly one POST; in raw mode the unprocessed
metadata comes back, an async envelope yields an Operation addressed at the
creation location and pre-seeded with the (expanded) response metadata, and
a sync envelope yields a plain resource at the creation location — with no
further request in any case. -/
theorem c2_create_dispatch (col : CollState) (resp : Response)
    (rest : List Response) (calls : List Call) (d : JVal) :
    (col.raw = true →
      collectionCreate col ⟨resp :: rest, calls⟩ d
        = .ok (.rawBody resp.metadata,
            ⟨rest, calls ++ [⟨"POST", some col.uri, none, none, some d⟩]⟩))
    ∧ (col.raw = false → resp.rtype = some "async" →
        ∀ seeded, setRelated operationRules resp.metadata = .ok seeded →
        collectionCreate col ⟨resp :: rest, calls⟩ d
          = .ok (.operation ⟨resp.location, none, some seeded⟩,
              ⟨rest, calls ++ [⟨"POST", some col.uri, none, none, some d⟩]⟩))
    ∧ (col.raw = false → resp.rtype ≠ some "async" →
        collectionCreate col ⟨resp :: rest, calls⟩ d
          = .ok (.resource (mkResource resp.location),
              ⟨rest, calls ++ [⟨"POST", some col.uri, none, none, some d⟩]⟩)) := by
  refine ⟨?_, ?_, ?_⟩
  · intro hraw
    simp [collectionCreate, Remote.request, hraw]
  · intro hraw hasync seeded hs
    simp [collectionCreate, Remote.request, hraw, responseOperation, hasync,
      updateDetails, hs, mkResource]
  · intro hraw hsync
    simp [collectionCreate, Remote.request, hraw, responseOperation, hsync]

/-- C2 witness: an async-envelope response to `create` yields the Operation
at the reported location, seeded with the response metadata, consuming the
single queued response. -/
theorem c2_create_dispatch_witness :
    collectionCreate (CollState.mk "/1.0/containers" false "name" [] (fun x => x))
        ⟨[Response.mk none (some "/1.0/operations/op") (some "async")
          (JVal.obj [("id", JVal.str "op")])], []⟩
        (JVal.obj [("name", JVal.str "c1")])
      = .ok (.operation (ResourceState.mk (some "/1.0/operations/op") none
            (some (JVal.obj [("id", JVal.str "op")]))),
          ⟨[], [Call.mk "POST" (some "/1.0/containers") none none
            (some (JVal.obj [("name", JVal.str "c1")]))]⟩) := by
  have h := (c2_create_dispatch
      (CollState.mk "/1.0/containers" false "name" [] (fun x => x))
      (Response.mk none (some "/1.0/operations/op") (some "async")
        (JVal.obj [("id", JVal.str "op")])) [] []
      (JVal.obj [("name", JVal.str "c1")])).2.1 rfl rfl
      (JVal.obj [("id", JVal.str "op")]) rfl
  exact h

/-- C5: `read(recursion=true)` issues exactly one GET carrying
`recursion=1` and returns one detail-seeded resource per listing member,
addressed at the collection base extended by the member's identifier, its
snapshot being the member payload with related-resource rules applied; in
non-recursive mode one bare resource per listed URI is returned, with no
cached snapshot.  No other request is issued in either mode. -/
theorem c5_collection_read (col : CollState) (hraw : col.raw = false) :
    (∀ (resp : Response) (rest : List Response) (calls : List Call)
        (xs : List JVal) (ids : JVal → String) (exps : JVal → JVal),
      col.hook resp.metadata = .list xs →
      (∀ x ∈ xs, dictItem x col.idAttribute = .ok (.str (ids x))
          ∧ setRelated col.rules x = .ok (exps x)) →
      collectionRead col ⟨resp :: rest, calls⟩ true
        = .ok (.resources (xs.map fun x =>
              ⟨some (resourceUri col.uri (ids x)), none, some (exps x)⟩),
            ⟨rest, calls ++ [⟨"GET", some col.uri,
              some [("recursion", 1)], none, none⟩]⟩))
    ∧ (∀ (resp : Response) (rest : List Response) (calls : List Call)
        (us : List String),
      col.hook resp.metadata = .list (us.map JVal.str) →
      collectionRead col ⟨resp :: rest, calls⟩ false
        = .ok (.resources (us.map fun u => mkResource (some u)),
            ⟨rest, calls ++ [⟨"GET", some col.uri, none, none, none⟩]⟩)) := by
  constructor
  · intro resp rest calls xs ids exps hhook hall
    have hmap : listMapPy (resourceFromDetails col) xs
        = .ok (xs.map fun x =>
            ⟨some (resourceUri col.uri (ids x)), none, some (exps x)⟩) := by
      refine listMapPy_ok _ _ xs fun x hx => ?_
      have h1 := (hall x hx).1
      have h2 := (hall x hx).2
      simp [resourceFromDetails, h1, asStr, updateDetails, h2, mkResource]
    simp [collectionRead, Remote.request, hraw, hhook, hmap]
  · intro resp rest calls us hhook
    have hmap : listMapPy (fun x => match asStr x with
        | .error e => (.error e : PyRes ResourceState)
        | .ok u => .ok (mkResource (some u))) (us.map JVal.str)
        = .ok ((us.map JVal.str).map fun x =>
            mkResource (some (match x with | .str s => s | _ => ""))) := by
      refine listMapPy_ok _ _ _ fun x hx => ?_
      obtain ⟨u, _, rfl⟩ := List.mem_map.mp hx
      rfl
    simp only [collectionRead, Remote.request, hraw, hhook, hmap]
    simp [List.map_map, Function.comp]

/-- C5 witness: the spec's scenario — a recursive read over
`[{"id": "one", "value": 1}, {"id": "two", "value": 2}]` yields resources at
`/things/one` and `/things/two` seeded with those payloads, after a single
GET carrying `recursion=1`. -/
theorem c5_collection_read_witness :
    collectionRead (CollState.mk "/things" false "id" [] (fun x => x))
        ⟨[Response.mk none none (some "sync")
          (JVal.list [JVal.obj [("id", JVal.str "one"), ("value", JVal.num 1)],
            JVal.obj [("id", JVal.str "two"), ("value", JVal.num 2)]])], []⟩
        true
      = .ok (.resources
            [ResourceState.mk (some (resourceUri "/things" "one")) none
              (some (JVal.obj [("id", JVal.str "one"), ("value", JVal.num 1)])),
             ResourceState.mk (some (resourceUri "/things" "two")) none
              (some (JVal.obj [("id", JVal.str "two"), ("value", JVal.num 2)]))],
          ⟨[], [Call.mk "GET" (some "/things")
            (some [("recursion", 1)]) none none]⟩)
    ∧ resourceUri "/things" "one" = "/things/one" := by
  constructor
  · have h := (c5_collection_read
        (CollState.mk "/things" false "id" [] (fun x => x)) rfl).1
        (Response.mk none none (some "sync")
          (JVal.list [JVal.obj [("id", JVal.str "one"), ("value", JVal.num 1)],
            JVal.obj [("id", JVal.str "two"), ("value", JVal.num 2)]]))
        [] []
        [JVal.obj [("id", JVal.str "one"), ("value", JVal.num 1)],
          JVal.obj [("id", JVal.str "two"), ("value", JVal.num 2)]]
        (fun x => match dictItem x "id" with
          | .ok (.str s) => s
          | _ => "")
        (fun x => x)
        rfl
        (by
          intro x hx
          simp only [List.mem_cons, List.not_mem_nil, or_false] at hx
          rcases hx with rfl | rfl
          · exact ⟨rfl, rfl⟩
          · exact ⟨rfl, rfl⟩)
    exact h
  · decide

/-! ## C7: transport error classification (`http.request`)

The repository delegates status checking to aiohttp's
`ClientResponse.raise_for_status`, which raises `ClientResponseError`
exactly for statuses `>= 400`; that dependency behaviour is part of the
model.  When the failing response declares a JSON content type, the
envelope's `error_code`/`error` fields replace the HTTP status/reason. -/

/-- The data of one HTTP exchange that `http.request` classifies: status,
reason phrase, whether the response declares `Content-Type:
application/json`, and the decoded JSON body. -/
structure HttpResp where
  status : Nat
  reason : String
  jsonContentType : Bool
  body : JVal
deriving Repr

/-- Outcome of `http.request`: either the response is returned, or a
`ResponseError(code, message)` is raised. -/
inductive ReqOutcome where
  | success
  | apiError (code : JVal) (message : JVal)
deriving Repr

/-- `http.request`'s status handling: `raise_for_status` (aiohttp: raises
exactly when `status >= 400`); on failure the JSON envelope's
`error_code`/`error` override the HTTP status/reason when the content type
is JSON. -/
def httpRequest (r : HttpResp) : PyRes ReqOutcome :=
  if r.status ≥ 400 then
    if r.jsonContentType then
      match dictItem r.body "error_code" with
      | .error e => .error e
      | .ok code => match dictItem r.body "error" with
        | .error e => .error e
        | .ok mesg => .ok (.apiError code mesg)
    else .ok (.apiError (.num r.status) (.str r.reason))
  else .ok .success

/-- C7 (amended): a status of 400 or above raises; any status below 400 —
in particular every 2xx — returns normally; a failing response with a JSON
content type raises the envelope's `error_code`/`error`, any other failure
raises the HTTP status and reason directly. -/
theorem c7_error_classification (r : HttpResp) :
    (r.status < 400 → httpRequest r = .ok .success)
    ∧ (400 ≤ r.status → r.jsonContentType = false →
        httpRequest r = .ok (.apiError (.num r.status) (.str r.reason)))
    ∧ (400 ≤ r.status → r.jsonContentType = true →
        ∀ code mesg, dictItem r.body "error_code" = .ok code →
          dictItem r.body "error" = .ok mesg →
          httpRequest r = .ok (.apiError code mesg)) := by
  refine ⟨?_, ?_, ?_⟩
  · intro h
    simp [httpRequest, Nat.not_le.mpr h]
  · intro h hj
    simp [httpRequest, h, hj]
  · intro h hj code mesg hc hm
    simp [httpRequest, h, hj, hc, hm]

/-- C7 witness: a 500 response with a JSON error envelope raises the
envelope's code and message rather than the raw status/reason. -/
theorem c7_error_classification_witness :
    httpRequest (HttpResp.mk 500 "Internal Server Error" true
        (JVal.obj [("error_code", JVal.num 400), ("error", JVal.str "bad")]))
      = .ok (.apiError (JVal.num 400) (JVal.str "bad")) := by
  have h := (c7_error_classification (HttpResp.mk 500 "Internal Server Error"
      true (JVal.obj [("error_code", JVal.num 400),
        ("error", JVal.str "bad")]))).2.2
      (by decide) rfl (JVal.num 400) (JVal.str "bad") rfl rfl
  exact h

/-- C7 counterexample: a 304 response is not 2xx, yet `raise_for_status`
does not fire (it raises only for statuses `>= 400`), so the request
returns normally where the claim demands an error. -/
theorem c7_status_304_no_raise :
    httpRequest (HttpResp.mk 304 "Not Modified" false JVal.null)
      = .ok .success
    ∧ ¬(200 ≤ 304 ∧ 304 < 300) := ⟨rfl, by decide⟩

/-! ## C9: the websocket read loop (`websocket.connect`) -/

/-- Inbound websocket frames as the read loop distinguishes them: `TEXT`
(with its decoded JSON payload), `CLOSED`, `ERROR` (with its data), and any
other frame type, which falls through every branch. -/
inductive WSFrame where
  | text (m : JVal)
  | closed
  | wserror (d : JVal)
  | other
deriving Repr

/-- One handler invocation performed by the loop: `handle_message` on a text
frame's payload or `handle_error` on an error frame's data. -/
inductive HCall where
  | message (m : JVal)
  | handleErr (d : JVal)
deriving Repr

/-- `websocket.connect`'s read loop over the inbound frames, returning the
handler invocations in order and whether a close frame terminated the loop
(calling `websocket.close()`); each invocation is awaited before the next
frame is read, which the sequential recursion captures. -/
def connectRun : List WSFrame → List HCall × Bool
  | [] => ([], false)
  | .text m :: rest =>
    let r := connectRun rest
    (.message m :: r.1, r.2)
  | .closed :: _ => ([], true)
  | .wserror d :: rest =>
    let r := connectRun rest
    (.handleErr d :: r.1, r.2)
  | .other :: rest => connectRun rest

/-- Whether a frame is the close frame. -/
def isClosedFrame : WSFrame → Bool
  | .closed => true
  | _ => false

/-- Modelled from the claim: the handler call one frame should produce. -/
def frameCall : WSFrame → Option HCall
  | .text m => some (.message m)
  | .wserror d => some (.handleErr d)
  | _ => none

/-- Modelled from the claim: one invocation per text frame in frame order
(error frames invoking the error hook in between), up to the first close
frame. -/
def specTrace (fs : List WSFrame) : List HCall :=
  (fs.takeWhile fun f => !isClosedFrame f).filterMap frameCall

/-- Modelled from the claim: the loop terminates through a close frame
exactly when one occurs. -/
def specClosed (fs : List WSFrame) : Bool :=
  fs.any isClosedFrame

/-- C9: for every inbound frame sequence the loop invokes the message
handler once per text frame and the error hook once per error frame, in
frame order, stopping at the first close frame (after which the connection
is closed and no further frame is processed); in particular two text frames
followed by a close frame yield exactly two handler invocations and then
termination. -/
theorem c9_event_loop_trace :
    (∀ fs, connectRun fs = (specTrace fs, specClosed fs))
    ∧ (∀ m₁ m₂ rest, connectRun (WSFrame.text m₁ :: WSFrame.text m₂ ::
        WSFrame.closed :: rest)
      = ([HCall.message m₁, HCall.message m₂], true)) := by
  constructor
  · intro fs
    induction fs with
    | nil => rfl
    | cons f rest ih =>
      cases f with
      | text m =>
        simp [connectRun, specTrace, specClosed, isClosedFrame, frameCall, ih]
      | closed =>
        simp [connectRun, specTrace, specClosed, isClosedFrame]
      | wserror d =>
        simp [connectRun, specTrace, specClosed, isClosedFrame, frameCall, ih]
      | other =>
        simp [connectRun, specTrace, specClosed, isClosedFrame, frameCall, ih]
  · intro m₁ m₂ rest
    rfl

/-! ## C8: `deepcopy` isolation of the accessors, on an explicit heap

The pure model above cannot express aliasing, so the deep-copy claim is
studied on an explicit heap: Python objects are numbered cells, list/dict
cells hold the addresses of their children, and mutation is a store to one
cell.  `copy.deepcopy` materialises the snapshot's value into fresh cells.
Resource handles (`JVal.res`) and other immutables are leaf cells. -/

/-- A heap cell: a scalar value, a list of child addresses, or a dict of
named child addresses. -/
inductive HNode where
  | scalar (v : JVal)
  | arr (elems : List Nat)
  | map (fields : List (String × Nat))

/-- The heap: cell contents plus the next fresh address. -/
structure Heap where
  mem : Nat → Option HNode
  next : Nat

/-- Mutate one cell in place. -/
def hwrite (h : Heap) (a : Nat) (node : HNode) : Heap :=
  ⟨fun b => if b = a then some node else h.mem b, h.next⟩

/-- Allocate one fresh cell. -/
def push (h : Heap) (node : HNode) : Heap × Nat :=
  (⟨fun b => if b = h.next then some node else h.mem b, h.next + 1⟩, h.next)

/-- Values that live in a single leaf cell (everything except lists and
dicts, whose children are separate cells). -/
def scalarish : JVal → Bool
  | .list _ => false
  | .obj _ => false
  | _ => true

/-- Read a sequence of cells with the given per-cell reader, collecting the
visited addresses. -/
def seqAux {α : Type} (g : Nat → Option (α × List Nat)) :
    List Nat → Option (List α × List Nat)
  | [] => some ([], [])
  | e :: es => match g e with
    | none => none
    | some (v, vs) => match seqAux g es with
      | none => none
      | some (rest, vss) => some (v :: rest, vs ++ vss)

/-- Read named cells with the given per-cell reader, collecting the visited
addresses. -/
def fieldsAux {α : Type} (g : Nat → Option (α × List Nat)) :
    List (String × Nat) → Option (List (String × α) × List Nat)
  | [] => some ([], [])
  | (k, e) :: es => match g e with
    | none => none
    | some (v, vs) => match fieldsAux g es with
      | none => none
      | some (rest, vss) => some ((k, v) :: rest, vs ++ vss)

/-- Read the value rooted at an address, together with every address it
occupies; `none` on dangling pointers, malformed leaves, or exhausted fuel
(cyclic object graphs do not arise from JSON payloads). -/
def readoutV : Nat → Heap → Nat → Option (JVal × List Nat)
  | 0, _, _ => none
  | f + 1, h, a => match h.mem a with
    | none => none
    | some (.scalar v) => if scalarish v then some (v, [a]) else none
    | some (.arr es) => match seqAux (fun e => readoutV f h e) es with
      | none => none
      | some (vs, visited) => some (.list vs, a :: visited)
    | some (.map fs) => match fieldsAux (fun e => readoutV f h e) fs with
      | none => none
      | some (kvs, visited) => some (.obj kvs, a :: visited)

/-- Allocate a sequence of values with the given per-value allocator,
threading the heap. -/
def allocSeqAux (g : Heap → JVal → Option (Heap × Nat)) :
    Heap → List JVal → Option (Heap × List Nat)
  | h, [] => some (h, [])
  | h, x :: xs => match g h x with
    | none => none
    | some (h₁, a) => match allocSeqAux g h₁ xs with
      | none => none
      | some (h₂, as) => some (h₂, a :: as)

/-- Allocate named values with the given per-value allocator, threading the
heap. -/
def allocFieldsAux (g : Heap → JVal → Option (Heap × Nat)) :
    Heap → List (String × JVal) → Option (Heap × List (String × Nat))
  | h, [] => some (h, [])
  | h, (k, x) :: xs => match g h x with
    | none => none
    | some (h₁, a) => match allocFieldsAux g h₁ xs with
      | none => none
      | some (h₂, as) => some (h₂, (k, a) :: as)

/-- Materialise a value into fresh cells: the effect of `copy.deepcopy` on a
tree-shaped object graph. -/
def allocN : Nat → Heap → JVal → Option (Heap × Nat)
  | 0, _, _ => none
  | f + 1, h, j => match j with
    | .list xs => match allocSeqAux (fun h' x => allocN f h' x) h xs with
      | none => none
      | some (h₁, as) => some (push h₁ (.arr as))
    | .obj fs => match allocFieldsAux (fun h' x => allocN f h' x) h fs with
      | none => none
      | some (h₁, kas) => some (push h₁ (.map kas))
    | v => some (push h (.scalar v))

/-- Reading an address visits it. -/
theorem readout_self_mem (f : Nat) (h : Heap) (a : Nat) (j : JVal)
    (vs : List Nat) (hr : readoutV f h a = some (j, vs)) : a ∈ vs := by
  match f with
  | 0 => simp [readoutV] at hr
  | f + 1 =>
    simp only [readoutV] at hr
    cases hm : h.mem a with
    | none => simp [hm] at hr
    | some node =>
      cases node with
      | scalar v =>
        simp only [hm] at hr
        by_cases hs : scalarish v
        · simp only [hs, if_pos, Option.some.injEq, Prod.mk.injEq] at hr
          simp [← hr.2]
        · simp [hs] at hr
      | arr es =>
        simp only [hm] at hr
        cases hs : seqAux (fun e => readoutV f h e) es with
        | none => simp [hs] at hr
        | some p =>
          obtain ⟨js, visited⟩ := p
          simp only [hs, Option.some.injEq, Prod.mk.injEq] at hr
          simp [← hr.2]
      | map fs =>
        simp only [hm] at hr
        cases hs : fieldsAux (fun e => readoutV f h e) fs with
        | none => simp [hs] at hr
        | some p =>
          obtain ⟨js, visited⟩ := p
          simp only [hs, Option.some.injEq, Prod.mk.injEq] at hr
          simp [← hr.2]

/-- Readout only depends on the visited cells: a heap agreeing on them reads
the same value through the same cells. -/
theorem readout_frame (f : Nat) :
    ∀ (h h' : Heap) (a : Nat) (j : JVal) (vs : List Nat),
      readoutV f h a = some (j, vs) → (∀ b ∈ vs, h'.mem b = h.mem b) →
      readoutV f h' a = some (j, vs) := by
  induction f with
  | zero => intro h h' a j vs hr _; simp [readoutV] at hr
  | succ f ih =>
    intro h h' a j vs hr hag
    have seqfr : ∀ (es : List Nat) (js : List JVal) (vss : List Nat),
        seqAux (fun e => readoutV f h e) es = some (js, vss) →
        (∀ b ∈ vss, h'.mem b = h.mem b) →
        seqAux (fun e => readoutV f h' e) es = some (js, vss) := by
      intro es
      induction es with
      | nil =>
        intro js vss hse _
        simp [seqAux] at hse ⊢
        exact hse
      | cons e es ihe =>
        intro js vss hse hagg
        simp only [seqAux] at hse ⊢
        cases hv : readoutV f h e with
        | none => simp [hv] at hse
        | some p =>
          obtain ⟨v, vs₁⟩ := p
          simp only [hv] at hse
          cases hs₂ : seqAux (fun e => readoutV f h e) es with
          | none => simp [hs₂] at hse
          | some q =>
            obtain ⟨rest, vss₂⟩ := q
            simp only [hs₂, Option.some.injEq, Prod.mk.injEq] at hse
            obtain ⟨h₁, h₂⟩ := hse
            subst h₁
            subst h₂
            simp only [ih h h' e v vs₁ hv
              (fun b hb => hagg b (by simp [hb]))]
            simp only [ihe rest vss₂ hs₂
              (fun b hb => hagg b (by simp [hb]))]
    have fldfr : ∀ (es : List (String × Nat)) (js : List (String × JVal))
        (vss : List Nat),
        fieldsAux (fun e => readoutV f h e) es = some (js, vss) →
        (∀ b ∈ vss, h'.mem b = h.mem b) →
        fieldsAux (fun e => readoutV f h' e) es = some (js, vss) := by
      intro es
      induction es with
      | nil =>
        intro js vss hse _
        simp [fieldsAux] at hse ⊢
        exact hse
      | cons e es ihe =>
        obtain ⟨k, e⟩ := e
        intro js vss hse hagg
        simp only [fieldsAux] at hse ⊢
        cases hv : readoutV f h e with
        | none => simp [hv] at hse
        | some p =>
          obtain ⟨v, vs₁⟩ := p
          simp only [hv] at hse
          cases hs₂ : fieldsAux (fun e => readoutV f h e) es with
          | none => simp [hs₂] at hse
          | some q =>
            obtain ⟨rest, vss₂⟩ := q
            simp only [hs₂, Option.some.injEq, Prod.mk.injEq] at hse
            obtain ⟨h₁, h₂⟩ := hse
            subst h₁
            subst h₂
            simp only [ih h h' e v vs₁ hv
              (fun b hb => hagg b (by simp [hb]))]
            simp only [ihe rest vss₂ hs₂
              (fun b hb => hagg b (by simp [hb]))]
    have hmem_a : a ∈ vs := readout_self_mem (f + 1) h a j vs hr
    simp only [readoutV] at hr ⊢
    cases hm : h.mem a with
    | none => simp [hm] at hr
    | some node =>
      rw [hag a hmem_a, hm]
      cases node with
      | scalar v =>
        simp only [hm] at hr
        by_cases hs : scalarish v
        · simp [hs] at hr ⊢
          exact hr
        · simp [hs] at hr
      | arr es =>
        simp only [hm] at hr
        cases hs : seqAux (fun e => readoutV f h e) es with
        | none => simp [hs] at hr
        | some p =>
          obtain ⟨js, visited⟩ := p
          simp only [hs, Option.some.injEq, Prod.mk.injEq] at hr
          obtain ⟨h₁, h₂⟩ := hr
          subst h₁
          subst h₂
          simp only [seqfr es js visited hs
            (fun b hb => hag b (by simp [hb]))]
      | map fs =>
        simp only [hm] at hr
        cases hs : fieldsAux (fun e => readoutV f h e) fs with
        | none => simp [hs] at hr
        | some p =>
          obtain ⟨js, visited⟩ := p
          simp only [hs, Option.some.injEq, Prod.mk.injEq] at hr
          obtain ⟨h₁, h₂⟩ := hr
          subst h₁
          subst h₂
          simp only [fldfr fs js visited hs
            (fun b hb => hag b (by simp [hb]))]

/-- Sequence version of `readout_frame`. -/
theorem seq_frame (f : Nat) (h h' : Heap) :
    ∀ (es : List Nat) (js : List JVal) (vss : List Nat),
      seqAux (fun e => readoutV f h e) es = some (js, vss) →
      (∀ b ∈ vss, h'.mem b = h.mem b) →
      seqAux (fun e => readoutV f h' e) es = some (js, vss) := by
  intro es
  induction es with
  | nil =>
    intro js vss hse _
    simp [seqAux] at hse ⊢
    exact hse
  | cons e es ihe =>
    intro js vss hse hagg
    simp only [seqAux] at hse ⊢
    cases hv : readoutV f h e with
    | none => simp [hv] at hse
    | some p =>
      obtain ⟨v, vs₁⟩ := p
      simp only [hv] at hse
      cases hs₂ : seqAux (fun e => readoutV f h e) es with
      | none => simp [hs₂] at hse
      | some q =>
        obtain ⟨rest, vss₂⟩ := q
        simp only [hs₂, Option.some.injEq, Prod.mk.injEq] at hse
        obtain ⟨h₁, h₂⟩ := hse
        subst h₁
        subst h₂
        simp only [readout_frame f h h' e v vs₁ hv
          (fun b hb => hagg b (by simp [hb]))]
        simp only [ihe rest vss₂ hs₂ (fun b hb => hagg b (by simp [hb]))]

/-- Field-sequence version of `readout_frame`. -/
theorem fields_frame (f : Nat) (h h' : Heap) :
    ∀ (es : List (String × Nat)) (js : List (String × JVal)) (vss : List Nat),
      fieldsAux (fun e => readoutV f h e) es = some (js, vss) →
      (∀ b ∈ vss, h'.mem b = h.mem b) →
      fieldsAux (fun e => readoutV f h' e) es = some (js, vss) := by
  intro es
  induction es with
  | nil =>
    intro js vss hse _
    simp [fieldsAux] at hse ⊢
    exact hse
  | cons e es ihe =>
    obtain ⟨k, e⟩ := e
    intro js vss hse hagg
    simp only [fieldsAux] at hse ⊢
    cases hv : readoutV f h e with
    | none => simp [hv] at hse
    | some p =>
      obtain ⟨v, vs₁⟩ := p
      simp only [hv] at hse
      cases hs₂ : fieldsAux (fun e => readoutV f h e) es with
      | none => simp [hs₂] at hse
      | some q =>
        obtain ⟨rest, vss₂⟩ := q
        simp only [hs₂, Option.some.injEq, Prod.mk.injEq] at hse
        obtain ⟨h₁, h₂⟩ := hse
        subst h₁
        subst h₂
        simp only [readout_frame f h h' e v vs₁ hv
          (fun b hb => hagg b (by simp [hb]))]
        simp only [ihe rest vss₂ hs₂ (fun b hb => hagg b (by simp [hb]))]

/-- Allocation spec: `allocN` touches no existing cell, returns a fresh
root, and the allocated cells read back the allocated value. -/
theorem alloc_spec (f : Nat) :
    ∀ h j h' a, allocN f h j = some (h', a) →
      h.next ≤ a ∧ a < h'.next
      ∧ (∀ b, b < h.next → h'.mem b = h.mem b)
      ∧ ∃ vs, readoutV f h' a = some (j, vs)
          ∧ ∀ b ∈ vs, h.next ≤ b ∧ b < h'.next := by
  induction f with
  | zero => intro h j h' a hal; simp [allocN] at hal
  | succ f ih =>
    intro h j h' a hal
    have seqspec : ∀ (xs : List JVal) (h₀ h₁ : Heap) (as : List Nat),
        allocSeqAux (fun hh x => allocN f hh x) h₀ xs = some (h₁, as) →
        h₀.next ≤ h₁.next
        ∧ (∀ b, b < h₀.next → h₁.mem b = h₀.mem b)
        ∧ ∃ vs, seqAux (fun e => readoutV f h₁ e) as = some (xs, vs)
            ∧ ∀ b ∈ vs, h₀.next ≤ b ∧ b < h₁.next := by
      intro xs
      induction xs with
      | nil =>
        intro h₀ h₁ as hse
        simp only [allocSeqAux, Option.some.injEq, Prod.mk.injEq] at hse
        obtain ⟨rfl, rfl⟩ := hse
        exact ⟨le_refl _, fun b _ => rfl, [], by simp [seqAux], by simp⟩
      | cons x xs ihx =>
        intro h₀ h₁ as hse
        simp only [allocSeqAux] at hse
        cases ha : allocN f h₀ x with
        | none => simp [ha] at hse
        | some p =>
          obtain ⟨hA, aA⟩ := p
          simp only [ha] at hse
          cases hrest : allocSeqAux (fun hh x => allocN f hh x) hA xs with
          | none => simp [hrest] at hse
          | some q =>
            obtain ⟨hB, asB⟩ := q
            simp only [hrest, Option.some.injEq, Prod.mk.injEq] at hse
            obtain ⟨rfl, rfl⟩ := hse
            obtain ⟨hle1a, hlta, hag1, vs1, hrd1, hbd1⟩ := ih h₀ x hA aA ha
            obtain ⟨hle2, hag2, vs2, hrd2, hbd2⟩ := ihx hA hB asB hrest
            have hle1 : h₀.next ≤ hA.next := le_trans hle1a (le_of_lt hlta)
            have hrd1' : readoutV f hB aA = some (x, vs1) :=
              readout_frame f hA hB aA x vs1 hrd1
                (fun b hb => hag2 b (hbd1 b hb).2)
            refine ⟨le_trans hle1 hle2, ?_, vs1 ++ vs2, ?_, ?_⟩
            · intro b hb
              rw [hag2 b (lt_of_lt_of_le hb hle1), hag1 b hb]
            · simp only [seqAux, hrd1', hrd2]
            · intro b hb
              rcases List.mem_append.mp hb with hb | hb
              · exact ⟨(hbd1 b hb).1, lt_of_lt_of_le (hbd1 b hb).2 hle2⟩
              · exact ⟨le_trans hle1 (hbd2 b hb).1, (hbd2 b hb).2⟩
    have fldspec : ∀ (xs : List (String × JVal)) (h₀ h₁ : Heap)
        (as : List (String × Nat)),
        allocFieldsAux (fun hh x => allocN f hh x) h₀ xs = some (h₁, as) →
        h₀.next ≤ h₁.next
        ∧ (∀ b, b < h₀.next → h₁.mem b = h₀.mem b)
        ∧ ∃ vs, fieldsAux (fun e => readoutV f h₁ e) as = some (xs, vs)
            ∧ ∀ b ∈ vs, h₀.next ≤ b ∧ b < h₁.next := by
      intro xs
      induction xs with
      | nil =>
        intro h₀ h₁ as hse
        simp only [allocFieldsAux, Option.some.injEq, Prod.mk.injEq] at hse
        obtain ⟨rfl, rfl⟩ := hse
        exact ⟨le_refl _, fun b _ => rfl, [], by simp [fieldsAux], by simp⟩
      | cons x xs ihx =>
        obtain ⟨k, x⟩ := x
        intro h₀ h₁ as hse
        simp only [allocFieldsAux] at hse
        cases ha : allocN f h₀ x with
        | none => simp [ha] at hse
        | some p =>
          obtain ⟨hA, aA⟩ := p
          simp only [ha] at hse
          cases hrest : allocFieldsAux (fun hh x => allocN f hh x) hA xs with
          | none => simp [hrest] at hse
          | some q =>
            obtain ⟨hB, asB⟩ := q
            simp only [hrest, Option.some.injEq, Prod.mk.injEq] at hse
            obtain ⟨rfl, rfl⟩ := hse
            obtain ⟨hle1a, hlta, hag1, vs1, hrd1, hbd1⟩ := ih h₀ x hA aA ha
            obtain ⟨hle2, hag2, vs2, hrd2, hbd2⟩ := ihx hA hB asB hrest
            have hle1 : h₀.next ≤ hA.next := le_trans hle1a (le_of_lt hlta)
            have hrd1' : readoutV f hB aA = some (x, vs1) :=
              readout_frame f hA hB aA x vs1 hrd1
                (fun b hb => hag2 b (hbd1 b hb).2)
            refine ⟨le_trans hle1 hle2, ?_, vs1 ++ vs2, ?_, ?_⟩
            · intro b hb
              rw [hag2 b (lt_of_lt_of_le hb hle1), hag1 b hb]
            · simp only [fieldsAux, hrd1', hrd2]
            · intro b hb
              rcases List.mem_append.mp hb with hb | hb
              · exact ⟨(hbd1 b hb).1, lt_of_lt_of_le (hbd1 b hb).2 hle2⟩
              · exact ⟨le_trans hle1 (hbd2 b hb).1, (hbd2 b hb).2⟩
    cases j with
    | list xs =>
      simp only [allocN] at hal
      cases hs : allocSeqAux (fun hh x => allocN f hh x) h xs with
      | none => simp [hs] at hal
      | some p =>
        obtain ⟨h₁, as⟩ := p
        simp only [hs, push, Option.some.injEq, Prod.mk.injEq] at hal
        obtain ⟨rfl, rfl⟩ := hal
        obtain ⟨hle, hag, vs, hrd, hbd⟩ := seqspec xs h h₁ as hs
        refine ⟨hle, Nat.lt_succ_self _, ?_, h₁.next :: vs, ?_, ?_⟩
        · intro b hb
          have hbne : b ≠ h₁.next := Nat.ne_of_lt (lt_of_lt_of_le hb hle)
          simp only [hbne, if_false]
          exact hag b hb
        · have hrd' : seqAux (fun e => readoutV f
              (⟨fun b => if b = h₁.next then some (.arr as) else h₁.mem b,
                h₁.next + 1⟩ : Heap) e) as = some (xs, vs) := by
            refine seq_frame f h₁ _ as xs vs hrd fun b hb => ?_
            have hbne : b ≠ h₁.next := Nat.ne_of_lt (hbd b hb).2
            simp [hbne]
          simp [readoutV, hrd']
        · intro b hb
          rcases List.mem_cons.mp hb with rfl | hb
          · exact ⟨hle, Nat.lt_succ_self _⟩
          · exact ⟨(hbd b hb).1, Nat.lt_succ_of_lt (hbd b hb).2⟩
    | obj fs =>
      simp only [allocN] at hal
      cases hs : allocFieldsAux (fun hh x => allocN f hh x) h fs with
      | none => simp [hs] at hal
      | some p =>
        obtain ⟨h₁, as⟩ := p
        simp only [hs, push, Option.some.injEq, Prod.mk.injEq] at hal
        obtain ⟨rfl, rfl⟩ := hal
        obtain ⟨hle, hag, vs, hrd, hbd⟩ := fldspec fs h h₁ as hs
        refine ⟨hle, Nat.lt_succ_self _, ?_, h₁.next :: vs, ?_, ?_⟩
        · intro b hb
          have hbne : b ≠ h₁.next := Nat.ne_of_lt (lt_of_lt_of_le hb hle)
          simp only [hbne, if_false]
          exact hag b hb
        · have hrd' : fieldsAux (fun e => readoutV f
              (⟨fun b => if b = h₁.next then some (.map as) else h₁.mem b,
                h₁.next + 1⟩ : Heap) e) as = some (fs, vs) := by
            refine fields_frame f h₁ _ as fs vs hrd fun b hb => ?_
            have hbne : b ≠ h₁.next := Nat.ne_of_lt (hbd b hb).2
            simp [hbne]
          simp [readoutV, hrd']
        · intro b hb
          rcases List.mem_cons.mp hb with rfl | hb
          · exact ⟨hle, Nat.lt_succ_self _⟩
          · exact ⟨(hbd b hb).1, Nat.lt_succ_of_lt (hbd b hb).2⟩
    | null =>
      simp only [allocN, push, Option.some.injEq, Prod.mk.injEq] at hal
      obtain ⟨rfl, rfl⟩ := hal
      refine ⟨le_refl _, Nat.lt_succ_self _, ?_, [h.next], ?_, ?_⟩
      · intro b hb
        simp [Nat.ne_of_lt hb]
      · simp [readoutV, scalarish]
      · simp
    | bool bv =>
      simp only [allocN, push, Option.some.injEq, Prod.mk.injEq] at hal
      obtain ⟨rfl, rfl⟩ := hal
      refine ⟨le_refl _, Nat.lt_succ_self _, ?_, [h.next], ?_, ?_⟩
      · intro b hb
        simp [Nat.ne_of_lt hb]
      · simp [readoutV, scalarish]
      · simp
    | num nv =>
      simp only [allocN, push, Option.some.injEq, Prod.mk.injEq] at hal
      obtain ⟨rfl, rfl⟩ := hal
      refine ⟨le_refl _, Nat.lt_succ_self _, ?_, [h.next], ?_, ?_⟩
      · intro b hb
        simp [Nat.ne_of_lt hb]
      · simp [readoutV, scalarish]
      · simp
    | str sv =>
      simp only [allocN, push, Option.some.injEq, Prod.mk.injEq] at hal
      obtain ⟨rfl, rfl⟩ := hal
      refine ⟨le_refl _, Nat.lt_succ_self _, ?_, [h.next], ?_, ?_⟩
      · intro b hb
        simp [Nat.ne_of_lt hb]
      · simp [readoutV, scalarish]
      · simp
    | res kd ar =>
      simp only [allocN, push, Option.some.injEq, Prod.mk.injEq] at hal
      obtain ⟨rfl, rfl⟩ := hal
      refine ⟨le_refl _, Nat.lt_succ_self _, ?_, [h.next], ?_, ?_⟩
      · intro b hb
        simp [Nat.ne_of_lt hb]
      · simp [readoutV, scalarish]
      · simp

/-- A value read out at some fuel can be allocated into any heap at the same
fuel. -/
theorem alloc_of_readout (f : Nat) :
    ∀ (h : Heap) (a : Nat) (j : JVal) (vs : List Nat),
      readoutV f h a = some (j, vs) →
      ∀ h₂, ∃ h' a', allocN f h₂ j = some (h', a') := by
  induction f with
  | zero => intro h a j vs hr; simp [readoutV] at hr
  | succ f ih =>
    intro h a j vs hr h₂
    have seqex : ∀ (es : List Nat) (js : List JVal) (vss : List Nat),
        seqAux (fun e => readoutV f h e) es = some (js, vss) →
        ∀ h₃, ∃ h' as, allocSeqAux (fun hh x => allocN f hh x) h₃ js
          = some (h', as) := by
      intro es
      induction es with
      | nil =>
        intro js vss hse h₃
        simp only [seqAux, Option.some.injEq, Prod.mk.injEq] at hse
        obtain ⟨rfl, rfl⟩ := hse
        exact ⟨h₃, [], rfl⟩
      | cons e es ihe =>
        intro js vss hse h₃
        simp only [seqAux] at hse
        cases hv : readoutV f h e with
        | none => simp [hv] at hse
        | some p =>
          obtain ⟨v, vs₁⟩ := p
          simp only [hv] at hse
          cases hs₂ : seqAux (fun e => readoutV f h e) es with
          | none => simp [hs₂] at hse
          | some q =>
            obtain ⟨rest, vss₂⟩ := q
            simp only [hs₂, Option.some.injEq, Prod.mk.injEq] at hse
            obtain ⟨h₁, h₂'⟩ := hse
            subst h₁
            subst h₂'
            obtain ⟨hA, aA, ha⟩ := ih h e v vs₁ hv h₃
            obtain ⟨hB, asB, hb⟩ := ihe rest vss₂ hs₂ hA
            exact ⟨hB, aA :: asB, by simp [allocSeqAux, ha, hb]⟩
    have fldex : ∀ (es : List (String × Nat)) (js : List (String × JVal))
        (vss : List Nat),
        fieldsAux (fun e => readoutV f h e) es = some (js, vss) →
        ∀ h₃, ∃ h' as, allocFieldsAux (fun hh x => allocN f hh x) h₃ js
          = some (h', as) := by
      intro es
      induction es with
      | nil =>
        intro js vss hse h₃
        simp only [fieldsAux, Option.some.injEq, Prod.mk.injEq] at hse
        obtain ⟨rfl, rfl⟩ := hse
        exact ⟨h₃, [], rfl⟩
      | cons e es ihe =>
        obtain ⟨k, e⟩ := e
        intro js vss hse h₃
        simp only [fieldsAux] at hse
        cases hv : readoutV f h e with
        | none => simp [hv] at hse
        | some p =>
          obtain ⟨v, vs₁⟩ := p
          simp only [hv] at hse
          cases hs₂ : fieldsAux (fun e => readoutV f h e) es with
          | none => simp [hs₂] at hse
          | some q =>
            obtain ⟨rest, vss₂⟩ := q
            simp only [hs₂, Option.some.injEq, Prod.mk.injEq] at hse
            obtain ⟨h₁, h₂'⟩ := hse
            subst h₁
            subst h₂'
            obtain ⟨hA, aA, ha⟩ := ih h e v vs₁ hv h₃
            obtain ⟨hB, asB, hb⟩ := ihe rest vss₂ hs₂ hA
            exact ⟨hB, (k, aA) :: asB, by simp [allocFieldsAux, ha, hb]⟩
    simp only [readoutV] at hr
    cases hm : h.mem a with
    | none => simp [hm] at hr
    | some node =>
      cases node with
      | scalar v =>
        simp only [hm] at hr
        by_cases hs : scalarish v
        · simp only [hs, if_pos, Option.some.injEq, Prod.mk.injEq] at hr
          obtain ⟨h₁, -⟩ := hr
          subst h₁
          cases v with
          | list xs => simp [scalarish] at hs
          | obj fs => simp [scalarish] at hs
          | null => exact ⟨_, _, rfl⟩
          | bool bv => exact ⟨_, _, rfl⟩
          | num nv => exact ⟨_, _, rfl⟩
          | str sv => exact ⟨_, _, rfl⟩
          | res kd ar => exact ⟨_, _, rfl⟩
        · simp [hs] at hr
      | arr es =>
        simp only [hm] at hr
        cases hs : seqAux (fun e => readoutV f h e) es with
        | none => simp [hs] at hr
        | some p =>
          obtain ⟨js, visited⟩ := p
          simp only [hs, Option.some.injEq, Prod.mk.injEq] at hr
          obtain ⟨h₁, -⟩ := hr
          subst h₁
          obtain ⟨h', as, hs'⟩ := seqex es js visited hs h₂
          refine ⟨(push h' (.arr as)).1, (push h' (.arr as)).2, ?_⟩
          simp [allocN, hs']
      | map fs =>
        simp only [hm] at hr
        cases hs : fieldsAux (fun e => readoutV f h e) fs with
        | none => simp [hs] at hr
        | some p =>
          obtain ⟨js, visited⟩ := p
          simp only [hs, Option.some.injEq, Prod.mk.injEq] at hr
          obtain ⟨h₁, -⟩ := hr
          subst h₁
          obtain ⟨h', as, hs'⟩ := fldex fs js visited hs h₂
          refine ⟨(push h' (.map as)).1, (push h' (.map as)).2, ?_⟩
          simp [allocN, hs']

/-- Truthiness of the object in one cell (`len`-based for containers). -/
def nodeTruthy : HNode → Bool
  | .scalar v => jtruthy v
  | .arr es => !es.isEmpty
  | .map fs => !fs.isEmpty

/-- Association lookup among a dict cell's fields. -/
def lookupN : List (String × Nat) → String → Option Nat
  | [], _ => none
  | (k, v) :: rest, key => if k = key then some v else lookupN rest key

/-- `Resource.details()` on the heap: `None` without a truthy snapshot,
otherwise a deep copy of the snapshot cell; the outer `Option` is `none`
only on heaps the model cannot read (dangling cells, exhausted fuel). -/
def hdetails (f : Nat) (h : Heap) (da : Option Nat) :
    Option (Heap × Option Nat) :=
  match da with
  | none => some (h, none)
  | some a => match h.mem a with
    | none => none
    | some node =>
      if nodeTruthy node then
        match readoutV f h a with
        | none => none
        | some (j, _) => match allocN f h j with
          | none => none
          | some (h', a') => some (h', some a')
      else some (h, none)

/-- `Resource.__getitem__` on the heap: `KeyError` without a truthy
snapshot or for an absent key, otherwise a deep copy of the entry's cell. -/
def hgetitem (f : Nat) (h : Heap) (da : Option Nat) (item : String) :
    Option (PyRes (Heap × Nat)) :=
  match da with
  | none => some (.error .keyError)
  | some a => match h.mem a with
    | none => none
    | some node =>
      if nodeTruthy node then
        match node with
        | .map fs => match lookupN fs item with
          | none => some (.error .keyError)
          | some c => match readoutV f h c with
            | none => none
            | some (jc, _) => match allocN f h jc with
              | none => none
              | some (h', c') => some (.ok (h', c'))
        | _ => some (.error .typeError)
      else some (.error .keyError)

/-- C8: with a readable truthy snapshot at `a` whose cells are all live
(`< next`), `details()` deep-copies it into fresh cells only: the copy reads
back the same value, the snapshot still reads back unchanged, writing to any
cell of the returned copy leaves the snapshot's readout (and the resource's
token, which no accessor touches) intact, and a second call returns the same
value again; field access behaves the same for the entry's cell. -/
theorem c8_accessor_isolation (f : Nat) (h : Heap) (a : Nat) (j : JVal)
    (vs : List Nat) (node : HNode)
    (hr : readoutV f h a = some (j, vs))
    (hwfv : ∀ b ∈ vs, b < h.next)
    (hmem : h.mem a = some node) (htr : nodeTruthy node = true) :
    (∃ h' a' vs',
      hdetails f h (some a) = some (h', some a')
      ∧ readoutV f h' a' = some (j, vs')
      ∧ readoutV f h' a = some (j, vs)
      ∧ (∀ b ∈ vs', h.next ≤ b)
      ∧ (∀ b ∈ vs', ∀ nd, readoutV f (hwrite h' b nd) a = some (j, vs))
      ∧ (∃ h₂ a₂ vs₂, hdetails f h' (some a) = some (h₂, some a₂)
          ∧ readoutV f h₂ a₂ = some (j, vs₂)))
    ∧ (∀ fs item c jc vsc, node = .map fs → lookupN fs item = some c →
        readoutV f h c = some (jc, vsc) → (∀ b ∈ vsc, b < h.next) →
        ∃ h'' c' vs'',
          hgetitem f h (some a) item = some (.ok (h'', c'))
          ∧ readoutV f h'' c' = some (jc, vs'')
          ∧ readoutV f h'' a = some (j, vs)
          ∧ (∀ b ∈ vs'', h.next ≤ b)
          ∧ (∀ b ∈ vs'', ∀ nd, readoutV f (hwrite h'' b nd) a
              = some (j, vs))) := by
  constructor
  · obtain ⟨h', a', halloc⟩ := alloc_of_readout f h a j vs hr h
    obtain ⟨hle_a, hlt_a, hag, vs', hrd', hbd⟩ := alloc_spec f h j h' a' halloc
    have hsnap : readoutV f h' a = some (j, vs) :=
      readout_frame f h h' a j vs hr (fun b hb => hag b (hwfv b hb))
    have hmem' : h'.mem a = some node := by
      rw [hag a (hwfv a (readout_self_mem f h a j vs hr)), hmem]
    obtain ⟨h₂, a₂, halloc₂⟩ := alloc_of_readout f h' a j vs hsnap h'
    obtain ⟨-, -, -, vs₂, hrd₂, -⟩ := alloc_spec f h' j h₂ a₂ halloc₂
    refine ⟨h', a', vs', ?_, hrd', hsnap, fun b hb => (hbd b hb).1,
      ?_, h₂, a₂, vs₂, ?_, hrd₂⟩
    · simp [hdetails, hmem, htr, hr, halloc]
    · intro b hb nd
      refine readout_frame f h (hwrite h' b nd) a j vs hr fun c hc => ?_
      have hcb : c ≠ b :=
        Nat.ne_of_lt (lt_of_lt_of_le (hwfv c hc) (hbd b hb).1)
      simp only [hwrite, hcb, if_false]
      exact hag c (hwfv c hc)
    · simp [hdetails, hmem', htr, hsnap, halloc₂]
  · intro fs item c jc vsc hnode hlu hrc hwfc
    subst hnode
    obtain ⟨h'', c', hallocc⟩ := alloc_of_readout f h c jc vsc hrc h
    obtain ⟨hle_c, hlt_c, hag2, vs'', hrd'', hbd2⟩ :=
      alloc_spec f h jc h'' c' hallocc
    have hsnap : readoutV f h'' a = some (j, vs) :=
      readout_frame f h h'' a j vs hr (fun b hb => hag2 b (hwfv b hb))
    refine ⟨h'', c', vs'', ?_, hrd'', hsnap, fun b hb => (hbd2 b hb).1, ?_⟩
    · simp [hgetitem, hmem, htr, hlu, hrc, hallocc]
    · intro b hb nd
      refine readout_frame f h (hwrite h'' b nd) a j vs hr fun d hd => ?_
      have hdb : d ≠ b :=
        Nat.ne_of_lt (lt_of_lt_of_le (hwfv d hd) (hbd2 b hb).1)
      simp only [hwrite, hdb, if_false]
      exact hag2 d (hwfv d hd)

/-- A concrete three-cell heap holding the snapshot `{"a": [1]}`. -/
def c8heap : Heap :=
  ⟨fun n => if n = 0 then some (.map [("a", 1)])
    else if n = 1 then some (.arr [2])
    else if n = 2 then some (.scalar (.num 1)) else none, 3⟩

/-- C8 witness: on the concrete heap holding `{"a": [1]}`, `details()`
returns a fresh copy reading back the same value, and writing to any of the
copy's cells leaves the snapshot's readout unchanged. -/
theorem c8_accessor_isolation_witness :
    ∃ h' a' vs',
      hdetails 3 c8heap (some 0) = some (h', some a')
      ∧ readoutV 3 h' a' = some (.obj [("a", .list [.num 1])], vs')
      ∧ (∀ b ∈ vs', ∀ nd, readoutV 3 (hwrite h' b nd) 0
          = some (.obj [("a", .list [.num 1])], [0, 1, 2])) := by
  have h := c8_accessor_isolation 3 c8heap 0
      (.obj [("a", .list [.num 1])]) [0, 1, 2] (.map [("a", 1)])
      rfl (by decide) rfl rfl
  obtain ⟨⟨h', a', vs', h1, h2, h3, h4, h5, h6⟩, -⟩ := h
  exact ⟨h', a', vs', h1, h2, h5⟩

end Asynclxd
